import Mathlib

/-!
Verification development for the document-to-chunk processing pipeline of the
AgenticAI notebook repository.  The only original algorithmic code in the
repository is the function `process_documents_workflow`, which applies a
pluggable text-splitting strategy to a list of documents and tags each
produced chunk with `chunk_index` and `total_chunks` metadata merged over the
parent document's metadata (Python dict merge, derived keys last).  The
splitting strategies themselves live in an external library; where a claim is
about a strategy, the strategy is modelled from the specification.
-/

set_option autoImplicit false

namespace AgenticAI

/-- Metadata values: scalars stored in a document's metadata mapping. -/
inductive MVal where
  | str : String → MVal
  | nat : Nat → MVal
deriving DecidableEq, Repr

/-- Association-list model of a Python dict with string keys.  Reading a key
returns the value of the first matching entry. -/
def dictLookup : List (String × MVal) → String → Option MVal
  | [], _ => none
  | p :: rest, k => if p.1 = k then some p.2 else dictLookup rest k

/-- Python dict update `d[k] = v`: replace the value in place when the key is
present, otherwise append the new entry at the end. -/
def dictInsert : List (String × MVal) → String → MVal → List (String × MVal)
  | [], k, v => [(k, v)]
  | p :: rest, k, v => if p.1 = k then (k, v) :: rest else p :: dictInsert rest k v

/-- A loaded document: `page_content` text plus a metadata mapping, exactly
as in `langchain_core.documents.Document` as used by the notebook. -/
structure Document where
  page_content : String
  metadata : List (String × MVal)
deriving DecidableEq, Repr

/-- Python `enumerate` starting at `i`. -/
def enumFrom {α : Type} (i : Nat) : List α → List (Nat × α)
  | [] => []
  | a :: as => (i, a) :: enumFrom (i + 1) as

/-- One iteration of the inner loop of `process_documents_workflow`: build the
chunk document for chunk text `chunk` at position `i` of `n` total, with
metadata `\x7b**doc.metadata, 'chunk_index': i, 'total_chunks': n\x7d`. -/
def build_chunk (doc : Document) (n i : Nat) (chunk : String) : Document :=
  { page_content := chunk
    metadata := dictInsert (dictInsert doc.metadata "chunk_index" (MVal.nat i))
      "total_chunks" (MVal.nat n) }

/-- The chunk documents produced from one parent document given the list of
chunk texts returned by the splitter (the inner `for i, chunk in
enumerate(chunks)` loop of the source). -/
def chunk_docs (doc : Document) (chunks : List String) : List Document :=
  (enumFrom 0 chunks).map fun p => build_chunk doc chunks.length p.1 p.2

/-- Shallow embedding of `process_documents_workflow` (src/unnamed/part_000,
lines 541-559): for each document in order, split its content and append the
tagged chunk documents to the accumulator list. -/
def process_documents_workflow (documents : List Document)
    (split_text : String → List String) : List Document :=
  documents.foldl
    (fun all_chunks doc => all_chunks ++ chunk_docs doc (split_text doc.page_content)) []

/-- Embedding of the same loop when the splitter may raise: the Python
exception propagates out of the loop unchanged and no list is returned.
`ε` is the (opaque) type of the strategy's error. -/
def process_documents_workflow_exc {ε : Type} (documents : List Document)
    (split_text : String → Except ε (List String)) : Except ε (List Document) :=
  match documents with
  | [] => Except.ok []
  | doc :: rest =>
    match split_text doc.page_content with
    | Except.error e => Except.error e
    | Except.ok chunks =>
      match process_documents_workflow_exc rest split_text with
      | Except.error e => Except.error e
      | Except.ok tail => Except.ok (chunk_docs doc chunks ++ tail)

/-- Sample parent document used by concrete witnesses.  Its metadata already
contains a `chunk_index` key, so witnesses also exercise the last-write-wins
merge. -/
def wDoc : Document :=
  { page_content := "hello"
    metadata := [("source", MVal.str "f.txt"), ("chunk_index", MVal.nat 99)] }

/-- Concrete two-chunk splitting strategy for witnesses. -/
def wSplit : String → List String := fun s => [s ++ "!", s]

/-- Concrete strategy for witnesses that returns no chunks on empty input. -/
def wSplitE : String → List String := fun s => if s.length = 0 then [] else [s]

/-- Concrete fallible strategy: fails on the content "bad". -/
def badSplit : String → Except String (List String) :=
  fun s => if s = "bad" then Except.error "boom" else Except.ok [s]

/-- Document on which `badSplit` succeeds. -/
def okDoc : Document := { page_content := "ok", metadata := [] }

/-- Document on which `badSplit` fails. -/
def badDoc : Document := { page_content := "bad", metadata := [] }

/-- Boolean test that `pat` is an initial segment of `l`. -/
def startsWithSeq : List Char → List Char → Bool
  | [], _ => true
  | _ :: _, [] => false
  | a :: as, b :: bs => if a = b then startsWithSeq as bs else false

/-- Last `n` elements of a list. -/
def takeRight {α : Type} (n : Nat) (l : List α) : List α := l.drop (l.length - n)

/-- Fuelled worker for `hardCut`; `fuel` bounds the number of emitted pieces. -/
def hardCutAux (max : Nat) : Nat → List Char → List (List Char)
  | 0, t => [t]
  | fuel + 1, t =>
    if t.length ≤ max then [t] else t.take max :: hardCutAux max fuel (t.drop max)

/-- Modelled from the spec: the bounded-length splitter's last resort, "once
all candidate separators are exhausted, hard-cut at max_size" (the splitter
implementation itself lives in the external library, not in src/). -/
def hardCut (max : Nat) (text : List Char) : List (List Char) :=
  if max = 0 then [text] else hardCutAux max text.length text

/-- Fuelled worker splitting `text` at each occurrence of `sep`, keeping the
separator attached to the preceding piece; `acc` is the reversed current
piece. -/
def splitKeepSepAux (sep : List Char) : Nat → List Char → List Char → List (List Char)
  | _, acc, [] => [acc.reverse]
  | 0, acc, t => [acc.reverse ++ t]
  | fuel + 1, acc, c :: rest =>
    if startsWithSeq sep (c :: rest) then
      (acc.reverse ++ sep) :: splitKeepSepAux sep fuel [] ((c :: rest).drop sep.length)
    else
      splitKeepSepAux sep fuel (c :: acc) rest

/-- Split `text` at each occurrence of `sep`, keeping the separator attached
to the preceding piece, so that joining the pieces restores `text`. -/
def splitKeepSep (sep text : List Char) : List (List Char) :=
  splitKeepSepAux sep text.length [] text

/-- Modelled from the spec: recursive phase of the bounded-length splitter
(spec section 4.2), which is external library code not in src/.  Split on the
highest-priority separator; any piece still exceeding `max` is split again
with the remaining separators; the empty separator and separator exhaustion
both mean a hard cut at `max`. -/
def splitRec (max : Nat) : List (List Char) → List Char → List (List Char)
  | [], text => if text.length ≤ max then [text] else hardCut max text
  | sep :: rest, text =>
    if text.length ≤ max then [text]
    else if sep = [] then hardCut max text
    else
      (((splitKeepSep sep text).map fun piece =>
        if piece.length ≤ max then [piece] else splitRec max rest piece)).flatten

/-- Modelled from the spec: greedy merge of the small pieces into chunks of at
most `max` units, adjacent chunks sharing at most `ov` trailing/leading units
(re-derived after each split).  Each emitted pair records the length of the
overlap the chunk shares with its predecessor alongside the chunk itself. -/
def mergeLoop (max ov : Nat) (carry cur : List Char) :
    List (List Char) → List (Nat × List Char)
  | [] => [(carry.length, carry ++ cur)]
  | p :: ps =>
    if carry.length + cur.length + p.length ≤ max then
      mergeLoop max ov carry (cur ++ p) ps
    else
      (carry.length, carry ++ cur) ::
        mergeLoop max ov (takeRight (min ov (max - p.length)) (carry ++ cur)) p ps

/-- Merge a nonempty piece list starting with an empty carry. -/
def mergeChunks (max ov : Nat) : List (List Char) → List (Nat × List Char)
  | [] => []
  | p :: ps => mergeLoop max ov [] p ps

/-- Modelled from the spec: the full bounded-length splitter (spec section
4.2; the implementation demonstrated at src/unnamed/part_000 lines 384-393 is
external library code), returning each chunk together with the length of its
overlap with the previous chunk.  Empty input yields no chunks. -/
def recursive_splitter_info (max ov : Nat) (seps : List (List Char))
    (text : List Char) : List (Nat × List Char) :=
  if text = [] then [] else mergeChunks max ov (splitRec max seps text)

/-- The chunk texts of the modelled bounded-length splitter. -/
def recursive_splitter (max ov : Nat) (seps : List (List Char))
    (text : List Char) : List (List Char) :=
  (recursive_splitter_info max ov seps text).map Prod.snd

/-- Concatenate chunks in order after removing each chunk's recorded overlap
with its predecessor (the de-duplicating concatenation of the claim). -/
def dedupJoin (l : List (Nat × List Char)) : List Char :=
  (l.map fun p => p.2.drop p.1).flatten

/-- Relation between adjacent chunks: the recorded overlap of the second
chunk is a genuine shared region (its prefix equals the first chunk's suffix
of the same length) and never exceeds the requested overlap `ov`. -/
def overlapLink (ov : Nat) (p q : Nat × List Char) : Prop :=
  q.2.take q.1 = takeRight q.1 p.2 ∧ q.1 ≤ ov

/-- Fixed sample text for the bounded-length splitter scenarios. -/
def wText : List Char := "abcde fghij klmno".toList

/-- Error raised when a splitter is constructed with invalid parameters. -/
inductive SplitterError where
  | ConfigurationError : SplitterError
deriving DecidableEq, Repr

/-- Validated configuration of the bounded-length splitter. -/
structure BoundedSplitterConfig where
  max_size : Int
  overlap : Int
  separators : List (List Char)
deriving DecidableEq, Repr

/-- Validated configuration of the unit-count splitter. -/
structure UnitSplitterConfig where
  max_units : Int
  overlap_units : Int
deriving DecidableEq, Repr

/-- Modelled from the spec: eager constructor-time validation of the
bounded-length splitter (the external RecursiveCharacterTextSplitter, which
is not part of src/): a `max_size` of zero or negative, or
`overlap >= max_size`, fails fast with a `ConfigurationError` before any text
is seen; a successfully built configuration is validated here once and only
carried, never re-checked per call. -/
def mk_recursive_splitter (max_size overlap : Int) (seps : List (List Char)) :
    Except SplitterError BoundedSplitterConfig :=
  if max_size ≤ 0 ∨ overlap ≥ max_size then Except.error SplitterError.ConfigurationError
  else Except.ok { max_size := max_size, overlap := overlap, separators := seps }

/-- Modelled from the spec: the same eager validation for the unit-count
splitter (the external TokenTextSplitter, not part of src/). -/
def mk_token_splitter (max_units overlap_units : Int) :
    Except SplitterError UnitSplitterConfig :=
  if max_units ≤ 0 ∨ overlap_units ≥ max_units then
    Except.error SplitterError.ConfigurationError
  else Except.ok { max_units := max_units, overlap_units := overlap_units }

/-- Splitting with an already-validated configuration; the construction-time
check is not repeated here. -/
def split_with_config (cfg : BoundedSplitterConfig) (text : List Char) : List (List Char) :=
  recursive_splitter cfg.max_size.toNat cfg.overlap.toNat cfg.separators text

/-- Worker for `splitLines`; `acc` holds the reversed current line. -/
def splitLinesAux : List Char → List Char → List (List Char)
  | acc, [] => [acc.reverse]
  | acc, c :: rest =>
    if c = '\n' then acc.reverse :: splitLinesAux [] rest
    else splitLinesAux (c :: acc) rest

/-- Split text into its lines at each newline character. -/
def splitLines (text : List Char) : List (List Char) := splitLinesAux [] text

/-- Join lines back into a text with newline characters between them. -/
def joinLines : List (List Char) → List Char
  | [] => []
  | [l] => l
  | l :: rest => l ++ '\n' :: joinLines rest

/-- Does a line match a header marker: the marker is an initial segment of
the line and is followed by a space or the end of the line. -/
def markerMatch (m line : List Char) : Bool :=
  startsWithSeq m line &&
    (match line.drop m.length with
     | [] => true
     | c :: _ => c = ' ')

/-- Find the first marker matching a line, scanning the marker list from
position `lvl`; returns the marker's hierarchy level (its position in the
marker list), its label, and the heading text (the rest of the line with
leading spaces removed). -/
def findMarkerFrom (lvl : Nat) :
    List (List Char × String) → List Char → Option (Nat × String × List Char)
  | [], _ => none
  | (m, lab) :: rest, line =>
    if m ≠ [] ∧ markerMatch m line then
      some (lvl, lab, (line.drop m.length).dropWhile (fun c => c = ' '))
    else findMarkerFrom (lvl + 1) rest line

/-- Find the first marker matching a line. -/
def findMarker (markers : List (List Char × String)) (line : List Char) :
    Option (Nat × String × List Char) :=
  findMarkerFrom 0 markers line

/-- Metadata view of a heading path: label and heading text per entry. -/
def pathMeta (path : List (Nat × String × List Char)) : List (String × String) :=
  path.map fun e => (e.2.1, String.mk e.2.2)

/-- Modelled from the spec: scanning loop of the structural (header-bounded)
splitter, spec section 4.2 (the external MarkdownHeaderTextSplitter used at
src/unnamed/part_000 lines 445-458 is not part of src/).  Lines are scanned
top to bottom; a line matching a marker at level `lvl` emits the chunk
accumulated so far (if any), overwrites the running heading path at `lvl` and
clears deeper levels, and starts a new chunk at the header line; every chunk
carries the heading path current at its emission. -/
def mdGo (markers : List (List Char × String)) :
    List (List Char) → List (Nat × String × List Char) → List (List Char) →
      List (List Char × List (String × String))
  | [], path, cur =>
    if cur.isEmpty then [] else [(joinLines cur, pathMeta path)]
  | line :: rest, path, cur =>
    match findMarker markers line with
    | some (lvl, lab, htext) =>
      (if cur.isEmpty then [] else [(joinLines cur, pathMeta path)]) ++
        mdGo markers rest (path.filter (fun e => e.1 < lvl) ++ [(lvl, lab, htext)]) [line]
    | none => mdGo markers rest path (cur ++ [line])

/-- Modelled from the spec: the structural (header-bounded) splitter.
Content before the first matched marker becomes an initial chunk with empty
heading-path metadata; empty input yields no chunks. -/
def markdown_splitter (markers : List (List Char × String)) (text : List Char) :
    List (List Char × List (String × String)) :=
  if text = [] then [] else mdGo markers (splitLines text) [] []

/-- Boolean test that `pat` occurs contiguously somewhere in the text. -/
def containsSeq (pat : List Char) : List Char → Bool
  | [] => startsWithSeq pat []
  | c :: rest => startsWithSeq pat (c :: rest) || containsSeq pat rest

/-- The marker configuration of the structural-splitter scenario. -/
def markers7 : List (List Char × String) :=
  [("#".toList, "Header 1"), ("##".toList, "Header 2")]

/-- The input text of the structural-splitter scenario. -/
def text7 : List Char := "# A\ntext1\n## B\ntext2".toList

theorem dictLookup_dictInsert_self (m : List (String × MVal)) (k : String) (v : MVal) :
    dictLookup (dictInsert m k v) k = some v := by
  induction m with
  | nil => simp [dictInsert, dictLookup]
  | cons p rest ih =>
    by_cases h : p.1 = k
    · simp [dictInsert, dictLookup, h]
    · simp [dictInsert, dictLookup, h, ih]

theorem dictLookup_dictInsert_other (m : List (String × MVal)) (k k' : String) (v : MVal)
    (hne : k ≠ k') : dictLookup (dictInsert m k v) k' = dictLookup m k' := by
  induction m with
  | nil => simp [dictInsert, dictLookup, hne]
  | cons p rest ih =>
    by_cases h : p.1 = k
    · simp [dictInsert, dictLookup, h, hne]
    · simp [dictInsert, dictLookup, h, ih]

theorem enumFrom_length {α : Type} (i : Nat) (l : List α) :
    (enumFrom i l).length = l.length := by
  induction l generalizing i with
  | nil => rfl
  | cons a as ih => simp [enumFrom, ih]

theorem enumFrom_get {α : Type} (i : Nat) (l : List α) (j : Nat) (h : j < (enumFrom i l).length) :
    (enumFrom i l).get ⟨j, h⟩ =
      (i + j, l.get ⟨j, by simpa [enumFrom_length] using h⟩) := by
  induction l generalizing i j with
  | nil => simp [enumFrom] at h
  | cons a as ih =>
    cases j with
    | zero => simp [enumFrom]
    | succ j' =>
      have h' : j' < (enumFrom (i + 1) as).length := by
        simpa [enumFrom] using Nat.lt_of_succ_lt_succ (by simpa [enumFrom] using h)
      simp only [enumFrom, List.get]
      rw [ih (i + 1) j' h']
      simp [Nat.add_assoc, Nat.add_comm 1 j']

theorem chunk_docs_length (doc : Document) (chunks : List String) :
    (chunk_docs doc chunks).length = chunks.length := by
  simp [chunk_docs, enumFrom_length]

theorem chunk_docs_get (doc : Document) (chunks : List String) (i : Nat)
    (h : i < (chunk_docs doc chunks).length) :
    (chunk_docs doc chunks).get ⟨i, h⟩ =
      build_chunk doc chunks.length i
        (chunks.get ⟨i, by simpa [chunk_docs_length] using h⟩) := by
  have h' : i < (enumFrom 0 chunks).length := by
    simpa [chunk_docs, enumFrom_length] using h
  simp only [chunk_docs, List.get_map]
  rw [enumFrom_get 0 chunks i h']
  simp

theorem foldl_append_chunks (l : List Document) (acc : List Document)
    (f : Document → List Document) :
    l.foldl (fun a d => a ++ f d) acc = acc ++ (l.map f).flatten := by
  induction l generalizing acc with
  | nil => simp
  | cons d rest ih => simp [ih, List.append_assoc]

/-- The pipeline output is the concatenation, in document order, of the
per-document chunk lists. -/
theorem process_eq_flatten (documents : List Document) (split_text : String → List String) :
    process_documents_workflow documents split_text =
      (documents.map fun doc => chunk_docs doc (split_text doc.page_content)).flatten := by
  simpa using foldl_append_chunks documents []
    (fun doc => chunk_docs doc (split_text doc.page_content))

theorem startsWithSeq_append_drop (sep t : List Char) (h : startsWithSeq sep t = true) :
    sep ++ t.drop sep.length = t := by
  induction sep generalizing t with
  | nil => simp
  | cons a as ih =>
    cases t with
    | nil => simp [startsWithSeq] at h
    | cons b bs =>
      by_cases hab : a = b
      · subst hab
        have := ih bs (by simpa [startsWithSeq] using h)
        simpa using this
      · simp [startsWithSeq, hab] at h

theorem splitKeepSepAux_flatten (sep : List Char) (fuel : Nat) (acc t : List Char) :
    (splitKeepSepAux sep fuel acc t).flatten = acc.reverse ++ t := by
  induction fuel generalizing acc t with
  | zero => cases t <;> simp [splitKeepSepAux]
  | succ fuel ih =>
    cases t with
    | nil => simp [splitKeepSepAux]
    | cons c rest =>
      by_cases h : startsWithSeq sep (c :: rest)
      · simp only [splitKeepSepAux, h, if_true, List.flatten_cons, ih, List.reverse_nil,
          List.nil_append, List.append_assoc]
        rw [startsWithSeq_append_drop sep (c :: rest) h]
      · simp [splitKeepSepAux, h, ih]

theorem splitKeepSep_flatten (sep text : List Char) :
    (splitKeepSep sep text).flatten = text := by
  simpa using splitKeepSepAux_flatten sep text.length [] text

theorem hardCutAux_flatten (max fuel : Nat) (t : List Char) :
    (hardCutAux max fuel t).flatten = t := by
  induction fuel generalizing t with
  | zero => simp [hardCutAux]
  | succ fuel ih =>
    by_cases h : t.length ≤ max
    · simp [hardCutAux, h]
    · simp [hardCutAux, h, ih]

theorem hardCut_flatten (max : Nat) (text : List Char) :
    (hardCut max text).flatten = text := by
  by_cases h : max = 0
  · simp [hardCut, h]
  · simp [hardCut, h, hardCutAux_flatten]

theorem flatten_pieces {g : List Char → List (List Char)} (l : List (List Char))
    (h : ∀ x ∈ l, (g x).flatten = x) : ((l.map g).flatten).flatten = l.flatten := by
  induction l with
  | nil => simp
  | cons a rest ih =>
    simp only [List.map_cons, List.flatten_cons, List.flatten_append, List.flatten_cons]
    rw [h a (by simp), ih (fun x hx => h x (by simp [hx]))]

theorem splitRec_flatten (max : Nat) (seps : List (List Char)) (text : List Char) :
    (splitRec max seps text).flatten = text := by
  induction seps generalizing text with
  | nil =>
    by_cases h : text.length ≤ max
    · simp [splitRec, h]
    · simp [splitRec, h, hardCut_flatten]
  | cons sep rest ih =>
    by_cases h : text.length ≤ max
    · simp [splitRec, h]
    · by_cases hsep : sep = []
      · simp [splitRec, h, hsep, hardCut_flatten]
      · simp only [splitRec, h, if_false, hsep]
        rw [flatten_pieces (splitKeepSep sep text) ?_, splitKeepSep_flatten]
        intro x _
        by_cases hx : x.length ≤ max
        · simp [hx]
        · simp [hx, ih]

theorem hardCutAux_length_le (max fuel : Nat) (t : List Char) (hmax : 1 ≤ max)
    (hfuel : t.length ≤ fuel) : ∀ p ∈ hardCutAux max fuel t, p.length ≤ max := by
  induction fuel generalizing t with
  | zero =>
    intro p hp
    have : t = [] := List.eq_nil_of_length_eq_zero (Nat.le_zero.mp hfuel)
    subst this
    simp [hardCutAux] at hp
    simp [hp]
  | succ fuel ih =>
    intro p hp
    by_cases h : t.length ≤ max
    · simp [hardCutAux, h] at hp
      simpa [hp] using h
    · simp only [hardCutAux, h, if_false, List.mem_cons] at hp
      rcases hp with hp | hp
      · simp only [hp]
        exact List.length_take_le max t
      · exact ih (t.drop max) (by simp; omega) p hp

theorem hardCut_length_le (max : Nat) (text : List Char) (hmax : 1 ≤ max) :
    ∀ p ∈ hardCut max text, p.length ≤ max := by
  have : ¬ max = 0 := by omega
  simpa [hardCut, this] using hardCutAux_length_le max text.length text hmax le_rfl

theorem splitRec_length_le (max : Nat) (seps : List (List Char)) (text : List Char)
    (hmax : 1 ≤ max) :
    ∀ p ∈ splitRec max seps text, p.length ≤ max := by
  induction seps generalizing text with
  | nil =>
    intro p hp
    by_cases h : text.length ≤ max
    · simp [splitRec, h] at hp
      simpa [hp] using h
    · exact hardCut_length_le max text hmax p (by simpa [splitRec, h] using hp)
  | cons sep rest ih =>
    intro p hp
    by_cases h : text.length ≤ max
    · simp [splitRec, h] at hp
      simpa [hp] using h
    · by_cases hsep : sep = []
      · exact hardCut_length_le max text hmax p (by simpa [splitRec, h, hsep] using hp)
      · simp only [splitRec, h, if_false, hsep, List.mem_flatten, List.mem_map] at hp
        obtain ⟨s, ⟨piece, _, rfl⟩, hps⟩ := hp
        by_cases hpiece : piece.length ≤ max
        · simp [hpiece] at hps
          simpa [hps] using hpiece
        · simp only [hpiece, if_false] at hps
          exact ih piece p hps

theorem takeRight_len_le {α : Type} (n : Nat) (l : List α) : (takeRight n l).length ≤ n := by
  simp only [takeRight, List.length_drop]
  omega

theorem takeRight_idem {α : Type} (n : Nat) (l : List α) :
    takeRight (takeRight n l).length l = takeRight n l := by
  simp only [takeRight, List.length_drop]
  congr 1
  omega

theorem dedupJoin_cons (q : Nat × List Char) (l : List (Nat × List Char)) :
    dedupJoin (q :: l) = q.2.drop q.1 ++ dedupJoin l := by
  simp [dedupJoin]

theorem mergeLoop_dedup (max ov : Nat) (carry cur : List Char) (ps : List (List Char)) :
    dedupJoin (mergeLoop max ov carry cur ps) = cur ++ ps.flatten := by
  induction ps generalizing carry cur with
  | nil => simp [mergeLoop, dedupJoin, List.drop_left]
  | cons p ps ih =>
    by_cases h : carry.length + cur.length + p.length ≤ max
    · simp [mergeLoop, h, ih]
    · simp only [mergeLoop, h, if_false]
      rw [dedupJoin_cons, ih]
      simp [List.drop_left, List.append_assoc]

theorem mergeLoop_head (max ov : Nat) (carry cur : List Char) (ps : List (List Char)) :
    ∃ y rest, mergeLoop max ov carry cur ps = (carry.length, carry ++ y) :: rest := by
  induction ps generalizing cur with
  | nil => exact ⟨cur, [], rfl⟩
  | cons p ps ih =>
    by_cases h : carry.length + cur.length + p.length ≤ max
    · simpa [mergeLoop, h] using ih (cur ++ p)
    · refine ⟨cur, mergeLoop max ov (takeRight (min ov (max - p.length)) (carry ++ cur)) p ps, ?_⟩
      simp [mergeLoop, h]

theorem mergeLoop_chain (max ov : Nat) (carry cur : List Char) (ps : List (List Char)) :
    List.Chain' (overlapLink ov) (mergeLoop max ov carry cur ps) := by
  induction ps generalizing carry cur with
  | nil => simp [mergeLoop]
  | cons p ps ih =>
    by_cases h : carry.length + cur.length + p.length ≤ max
    · simpa [mergeLoop, h] using ih carry (cur ++ p)
    · simp only [mergeLoop, h, if_false]
      obtain ⟨y, rest, heq⟩ :=
        mergeLoop_head max ov (takeRight (min ov (max - p.length)) (carry ++ cur)) p ps
      rw [heq, List.chain'_cons]
      refine ⟨⟨?_, ?_⟩, heq ▸ ih _ p⟩
      · rw [List.take_left]
        exact (takeRight_idem _ _).symm
      · exact le_trans (takeRight_len_le _ _) (Nat.min_le_left _ _)

theorem mergeLoop_length_le (max ov : Nat) (carry cur : List Char) (ps : List (List Char))
    (hc : carry.length + cur.length ≤ max) (hp : ∀ p ∈ ps, p.length ≤ max) :
    ∀ q ∈ mergeLoop max ov carry cur ps, q.2.length ≤ max := by
  induction ps generalizing carry cur with
  | nil =>
    intro q hq
    simp only [mergeLoop, List.mem_singleton] at hq
    subst hq
    simpa using hc
  | cons p ps ih =>
    intro q hq
    by_cases h : carry.length + cur.length + p.length ≤ max
    · refine ih carry (cur ++ p) (by simp only [List.length_append]; omega)
        (fun x hx => hp x (by simp [hx])) q (by simpa [mergeLoop, h] using hq)
    · simp only [mergeLoop, h, if_false, List.mem_cons] at hq
      rcases hq with hq | hq
      · subst hq
        simpa using hc
      · have hplen : p.length ≤ max := hp p (by simp)
        have ht := takeRight_len_le (min ov (max - p.length)) (carry ++ cur)
        have h2 : min ov (max - p.length) ≤ max - p.length := Nat.min_le_right _ _
        exact ih _ p (by omega) (fun x hx => hp x (by simp [hx])) q hq

theorem mergeChunks_dedup (max ov : Nat) (ps : List (List Char)) :
    dedupJoin (mergeChunks max ov ps) = ps.flatten := by
  cases ps with
  | nil => simp [mergeChunks, dedupJoin]
  | cons p ps => simpa [mergeChunks] using mergeLoop_dedup max ov [] p ps

theorem mergeChunks_chain (max ov : Nat) (ps : List (List Char)) :
    List.Chain' (overlapLink ov) (mergeChunks max ov ps) := by
  cases ps with
  | nil => simp [mergeChunks]
  | cons p ps => simpa [mergeChunks] using mergeLoop_chain max ov [] p ps

theorem mergeChunks_length_le (max ov : Nat) (ps : List (List Char))
    (hp : ∀ p ∈ ps, p.length ≤ max) :
    ∀ q ∈ mergeChunks max ov ps, q.2.length ≤ max := by
  cases ps with
  | nil => simp [mergeChunks]
  | cons p ps =>
    have h0 : (List.nil (α := Char)).length + p.length ≤ max := by
      simpa using hp p (by simp)
    simpa [mergeChunks] using
      mergeLoop_length_le max ov [] p ps (by simpa using h0) (fun x hx => hp x (by simp [hx]))

theorem recursive_splitter_info_dedup (max ov : Nat) (seps : List (List Char))
    (text : List Char) : dedupJoin (recursive_splitter_info max ov seps text) = text := by
  by_cases h : text = []
  · simp [recursive_splitter_info, h, dedupJoin]
  · simp [recursive_splitter_info, h, mergeChunks_dedup, splitRec_flatten]

theorem recursive_splitter_info_chain (max ov : Nat) (seps : List (List Char))
    (text : List Char) :
    List.Chain' (overlapLink ov) (recursive_splitter_info max ov seps text) := by
  by_cases h : text = []
  · simp [recursive_splitter_info, h]
  · simpa [recursive_splitter_info, h] using mergeChunks_chain max ov (splitRec max seps text)

theorem recursive_splitter_length_le (max ov : Nat) (seps : List (List Char))
    (text : List Char) (hmax : 1 ≤ max) :
    ∀ c ∈ recursive_splitter max ov seps text, c.length ≤ max := by
  intro c hc
  simp only [recursive_splitter, List.mem_map] at hc
  obtain ⟨q, hq, rfl⟩ := hc
  by_cases h : text = []
  · simp [recursive_splitter_info, h] at hq
  · refine mergeChunks_length_le max ov (splitRec max seps text) ?_ q
      (by simpa [recursive_splitter_info, h] using hq)
    exact splitRec_length_le max seps text hmax

theorem recursive_splitter_covers (max ov : Nat) (seps : List (List Char))
    (text : List Char) (c : Char) (hc : c ∈ text) :
    ∃ chunk ∈ recursive_splitter max ov seps text, c ∈ chunk := by
  have hd := recursive_splitter_info_dedup max ov seps text
  rw [← hd] at hc
  simp only [dedupJoin, List.mem_flatten, List.mem_map] at hc
  obtain ⟨s, ⟨q, hq, rfl⟩, hcs⟩ := hc
  refine ⟨q.2, ?_, List.mem_of_mem_drop hcs⟩
  simp only [recursive_splitter, List.mem_map]
  exact ⟨q, hq, rfl⟩

theorem build_chunk_lookup_index (doc : Document) (n i : Nat) (chunk : String) :
    dictLookup (build_chunk doc n i chunk).metadata "chunk_index" = some (MVal.nat i) := by
  simp only [build_chunk]
  rw [dictLookup_dictInsert_other _ _ _ _ (by decide), dictLookup_dictInsert_self]

theorem build_chunk_lookup_total (doc : Document) (n i : Nat) (chunk : String) :
    dictLookup (build_chunk doc n i chunk).metadata "total_chunks" = some (MVal.nat n) := by
  simp only [build_chunk]
  rw [dictLookup_dictInsert_self]

theorem build_chunk_lookup_other (doc : Document) (n i : Nat) (chunk : String) (k : String)
    (h1 : k ≠ "chunk_index") (h2 : k ≠ "total_chunks") :
    dictLookup (build_chunk doc n i chunk).metadata k = dictLookup doc.metadata k := by
  simp only [build_chunk]
  rw [dictLookup_dictInsert_other _ _ _ _ (Ne.symm h2),
    dictLookup_dictInsert_other _ _ _ _ (Ne.symm h1)]

/-- Claim C1: for every input document list and splitting strategy, the chunk
documents the pipeline derives from one parent are tagged so that
`chunk_index` ranges over `[0, total_chunks)`, the indices are exactly
`0..total_chunks-1` in order, and the recorded `total_chunks` equals the
number of chunks the single strategy invocation on that parent produced. -/
theorem C1_chunk_index_exact (split_text : String → List String)
    (documents : List Document) (doc : Document) :
    process_documents_workflow documents split_text =
      (documents.map fun d => chunk_docs d (split_text d.page_content)).flatten ∧
    (chunk_docs doc (split_text doc.page_content)).length =
      (split_text doc.page_content).length ∧
    ∀ i (h : i < (chunk_docs doc (split_text doc.page_content)).length),
      dictLookup ((chunk_docs doc (split_text doc.page_content)).get ⟨i, h⟩).metadata
          "chunk_index" = some (MVal.nat i) ∧
      dictLookup ((chunk_docs doc (split_text doc.page_content)).get ⟨i, h⟩).metadata
          "total_chunks" = some (MVal.nat (split_text doc.page_content).length) := by
  refine ⟨process_eq_flatten documents split_text, chunk_docs_length doc _, ?_⟩
  intro i h
  rw [chunk_docs_get doc (split_text doc.page_content) i h]
  exact ⟨build_chunk_lookup_index _ _ _ _, build_chunk_lookup_total _ _ _ _⟩

theorem C1_witness :
    dictLookup ((chunk_docs wDoc (wSplit wDoc.page_content)).get ⟨1, by decide⟩).metadata
        "chunk_index" = some (MVal.nat 1) ∧
    dictLookup ((chunk_docs wDoc (wSplit wDoc.page_content)).get ⟨1, by decide⟩).metadata
        "total_chunks" = some (MVal.nat 2) :=
  (C1_chunk_index_exact wSplit [wDoc] wDoc).2.2 1 (by decide)

/-- Claim C2: the pipeline output is the concatenation of the per-document
chunk lists preserving document order and intra-document chunk order, its
length is the sum of the per-document chunk counts, and every chunk's
`total_chunks` equals its own parent's chunk count rather than the grand
total. -/
theorem C2_output_concatenation (split_text : String → List String)
    (documents : List Document) :
    process_documents_workflow documents split_text =
      (documents.map fun d => chunk_docs d (split_text d.page_content)).flatten ∧
    (process_documents_workflow documents split_text).length =
      (documents.map fun d => (split_text d.page_content).length).sum ∧
    ∀ d c, c ∈ chunk_docs d (split_text d.page_content) →
      dictLookup c.metadata "total_chunks" =
        some (MVal.nat (split_text d.page_content).length) := by
  refine ⟨process_eq_flatten documents split_text, ?_, ?_⟩
  · rw [process_eq_flatten]
    simp [chunk_docs_length, Function.comp_def]
  · intro d c hc
    simp only [chunk_docs, List.mem_map] at hc
    obtain ⟨p, _, rfl⟩ := hc
    exact build_chunk_lookup_total _ _ _ _

theorem C2_witness :
    dictLookup ((chunk_docs wDoc (wSplit wDoc.page_content)).get ⟨0, by decide⟩).metadata
        "total_chunks" = some (MVal.nat 2) :=
  (C2_output_concatenation wSplit [wDoc]).2.2 wDoc
    ((chunk_docs wDoc (wSplit wDoc.page_content)).get ⟨0, by decide⟩) (by decide)

/-- Claim C3: a chunk document's metadata is the parent's metadata merged
with the derived keys `chunk_index` and `total_chunks`; on a key collision
the derived value wins (last-write-wins), and every other parent key is
unchanged. -/
theorem C3_metadata_merge (doc : Document) (n i : Nat) (chunk : String) :
    (build_chunk doc n i chunk).metadata =
      dictInsert (dictInsert doc.metadata "chunk_index" (MVal.nat i)) "total_chunks"
        (MVal.nat n) ∧
    dictLookup (build_chunk doc n i chunk).metadata "chunk_index" = some (MVal.nat i) ∧
    dictLookup (build_chunk doc n i chunk).metadata "total_chunks" = some (MVal.nat n) ∧
    ∀ k, k ≠ "chunk_index" → k ≠ "total_chunks" →
      dictLookup (build_chunk doc n i chunk).metadata k = dictLookup doc.metadata k :=
  ⟨rfl, build_chunk_lookup_index doc n i chunk, build_chunk_lookup_total doc n i chunk,
    build_chunk_lookup_other doc n i chunk⟩

theorem C3_witness :
    dictLookup (build_chunk wDoc 2 0 "hello!").metadata "chunk_index" = some (MVal.nat 0) ∧
    dictLookup wDoc.metadata "chunk_index" = some (MVal.nat 99) ∧
    dictLookup (build_chunk wDoc 2 0 "hello!").metadata "source" =
      dictLookup wDoc.metadata "source" :=
  ⟨(C3_metadata_merge wDoc 2 0 "hello!").2.1, by decide,
    (C3_metadata_merge wDoc 2 0 "hello!").2.2.2 "source" (by decide) (by decide)⟩

/-- Claim C4: for every content and bounded-length configuration with
overlap < max_size, concatenating the chunks in order while dropping each
chunk's recorded overlapping region reproduces the original content; each
dropped region is a genuine overlap (the chunk's prefix equals its
predecessor's suffix of that length, never longer than the requested
overlap), and every unit of the original text appears in at least one output
chunk. -/
theorem C4_reconstruction (max ov : Nat) (seps : List (List Char)) (text : List Char)
    (_hov : ov < max) :
    dedupJoin (recursive_splitter_info max ov seps text) = text ∧
    List.Chain' (overlapLink ov) (recursive_splitter_info max ov seps text) ∧
    ∀ c ∈ text, ∃ chunk ∈ recursive_splitter max ov seps text, c ∈ chunk := by
  exact ⟨recursive_splitter_info_dedup max ov seps text,
    recursive_splitter_info_chain max ov seps text,
    fun c hc => recursive_splitter_covers max ov seps text c hc⟩

theorem C4_witness :
    2 < 10 ∧
    dedupJoin (recursive_splitter_info 10 2 [[' '], []] wText) = wText ∧
    ∃ chunk ∈ recursive_splitter 10 2 [[' '], []] wText, 'a' ∈ chunk :=
  ⟨by decide, (C4_reconstruction 10 2 [[' '], []] wText (by decide)).1,
    (C4_reconstruction 10 2 [[' '], []] wText (by decide)).2.2 'a' (by decide)⟩

/-- Claim C5 counterexample: two batches whose failing document sits at
different positions (position 0 in the first batch, position 1 in the
second) surface the identical error value, so the surfaced error carries no
index or identifier locating the offending document. -/
theorem C5_counterexample :
    process_documents_workflow_exc [badDoc] badSplit = Except.error "boom" ∧
    process_documents_workflow_exc [okDoc, badDoc] badSplit = Except.error "boom" ∧
    badSplit okDoc.page_content = Except.ok ["ok"] ∧
    badSplit badDoc.page_content = Except.error "boom" := by
  refine ⟨rfl, rfl, rfl, rfl⟩

/-- Claim C5 (amended): when the strategy fails on some document and succeeds
on all earlier ones, the pipeline surfaces that document's error value
unchanged (it neither catches nor skips it) and the whole batch aborts with
no partial output; the surfaced error carries only what the strategy itself
put into it, with no added document index. -/
theorem C5_error_propagation {ε : Type} (split_text : String → Except ε (List String))
    (ds1 : List Document) (d : Document) (ds2 : List Document) (e : ε)
    (hok : ∀ d2 ∈ ds1, ∃ cs, split_text d2.page_content = Except.ok cs)
    (hbad : split_text d.page_content = Except.error e) :
    process_documents_workflow_exc (ds1 ++ d :: ds2) split_text = Except.error e := by
  induction ds1 with
  | nil => simp only [List.nil_append, process_documents_workflow_exc, hbad]
  | cons a rest ih =>
    obtain ⟨cs, hcs⟩ := hok a (by simp)
    have hrec := ih (fun d2 hd2 => hok d2 (by simp [hd2]))
    simp only [List.cons_append, process_documents_workflow_exc, hcs, List.append_eq, hrec]

theorem C5_witness :
    process_documents_workflow_exc [okDoc, badDoc, okDoc] badSplit = Except.error "boom" :=
  C5_error_propagation badSplit [okDoc] badDoc [okDoc] "boom"
    (by intro d2 hd2; simp only [List.mem_singleton] at hd2; subst hd2; exact ⟨["ok"], rfl⟩)
    rfl

/-- Claim C6: for the splitter variants carrying size parameters, a
configuration with a zero or negative `max_size`/`max_units`, or with
`overlap >= max_size`, fails with a `ConfigurationError` at construction
time — the constructor returns the error before any text is seen, and a
validated configuration value is what later calls consume, so the check is
not repeated per call. -/
theorem C6_config_validation (max_size overlap : Int) (seps : List (List Char)) :
    (mk_recursive_splitter max_size overlap seps =
        Except.error SplitterError.ConfigurationError ↔
      max_size ≤ 0 ∨ overlap ≥ max_size) ∧
    (mk_token_splitter max_size overlap =
        Except.error SplitterError.ConfigurationError ↔
      max_size ≤ 0 ∨ overlap ≥ max_size) := by
  constructor <;>
  · by_cases h : max_size ≤ 0 ∨ overlap ≥ max_size
    · simp [mk_recursive_splitter, mk_token_splitter, h]
    · simp [mk_recursive_splitter, mk_token_splitter, h]

/-- Claim C7: the structural splitter with markers for two heading levels,
applied to a document with one level-1 section containing one level-2
subsection, yields exactly two chunks: the first carries only the level-1
heading and contains text1, the second carries both the level-1 and level-2
headings (all ancestors) and contains text2. -/
theorem C7_markdown_scenario :
    markdown_splitter markers7 text7 =
      [("# A\ntext1".toList, [("Header 1", "A")]),
        ("## B\ntext2".toList, [("Header 1", "A"), ("Header 2", "B")])] ∧
    containsSeq "text1".toList "# A\ntext1".toList = true ∧
    containsSeq "text2".toList "## B\ntext2".toList = true := by
  refine ⟨by decide, by decide, by decide⟩

/-- Claim C8: the bounded-length splitter with max_size 10, overlap 2 and
separators space-then-empty applied to "abcde fghij klmno" produces the
chunks "abcde ", "e fghij ", "j klmno", whose recorded overlaps are 0, 2, 2;
in general (for positive max_size) no chunk exceeds max_size, and every
adjacent pair of chunks shares exactly its recorded overlap — the second
chunk's prefix of that length equals the first chunk's suffix — which never
exceeds the requested overlap. -/
theorem C8_size_and_overlap_bounds (max ov : Nat) (seps : List (List Char))
    (text : List Char) (hmax : 1 ≤ max) :
    recursive_splitter_info 10 2 [[' '], []] wText =
      [(0, "abcde ".toList), (2, "e fghij ".toList), (2, "j klmno".toList)] ∧
    (∀ chunk ∈ recursive_splitter max ov seps text, chunk.length ≤ max) ∧
    ∀ (j : Nat) (h : j < (recursive_splitter_info max ov seps text).length - 1),
      ((recursive_splitter_info max ov seps text).get ⟨j + 1, by omega⟩).1 ≤ ov ∧
      ((recursive_splitter_info max ov seps text).get ⟨j + 1, by omega⟩).2.take
          ((recursive_splitter_info max ov seps text).get ⟨j + 1, by omega⟩).1 =
        takeRight ((recursive_splitter_info max ov seps text).get ⟨j + 1, by omega⟩).1
          ((recursive_splitter_info max ov seps text).get ⟨j, by omega⟩).2 := by
  refine ⟨by decide, recursive_splitter_length_le max ov seps text hmax, ?_⟩
  intro j h
  have hchain := recursive_splitter_info_chain max ov seps text
  rw [List.chain'_iff_get] at hchain
  have h2 := hchain j h
  unfold overlapLink at h2
  exact ⟨h2.2, h2.1⟩

theorem C8_witness :
    1 ≤ 10 ∧ ∀ chunk ∈ recursive_splitter 10 2 [[' '], []] wText, chunk.length ≤ 10 :=
  ⟨by decide, (C8_size_and_overlap_bounds 10 2 [[' '], []] wText (by decide)).2.1⟩

/-- Claim C9: a document with empty content yields zero chunk documents
(given the strategy's guarantee that empty text yields no chunks, which the
modelled bounded-length splitter satisfies), and removing the empty document
from the batch leaves the pipeline output — including all neighbours' indices
— unchanged. -/
theorem C9_empty_document (split_text : String → List String) (ds1 ds2 : List Document)
    (m : List (String × MVal)) (hempty : split_text "" = []) :
    chunk_docs { page_content := "", metadata := m } (split_text "") = [] ∧
    process_documents_workflow (ds1 ++ { page_content := "", metadata := m } :: ds2)
        split_text =
      process_documents_workflow (ds1 ++ ds2) split_text ∧
    ∀ max ov seps, recursive_splitter max ov seps [] = [] := by
  refine ⟨by simp [hempty, chunk_docs, enumFrom], ?_, fun max ov seps => rfl⟩
  rw [process_eq_flatten, process_eq_flatten]
  simp [hempty, chunk_docs, enumFrom]

theorem C9_witness :
    process_documents_workflow [wDoc, { page_content := "", metadata := [] }] wSplitE =
      process_documents_workflow [wDoc] wSplitE := by
  simpa using (C9_empty_document wSplitE [wDoc] [] [] (by decide)).2.1

/-- Claim C10: the pipeline is a homomorphism over document-list
concatenation — its output on `ds1 ++ ds2` is its output on `ds1` followed by
its output on `ds2` — and the empty batch yields the empty output. -/
theorem C10_concat_homomorphism (split_text : String → List String)
    (ds1 ds2 : List Document) :
    process_documents_workflow (ds1 ++ ds2) split_text =
      process_documents_workflow ds1 split_text ++
        process_documents_workflow ds2 split_text ∧
    process_documents_workflow ([] : List Document) split_text = [] := by
  refine ⟨?_, rfl⟩
  rw [process_eq_flatten, process_eq_flatten, process_eq_flatten]
  simp

end AgenticAI
